import Mathlib

/-!
Shallow embedding of the actix-blockchain core (src/src/model/blockchain.rs,
src/src/model/transaction.rs, src/src/miner/mod.rs, src/src/lib.rs).

Machine integers (`u64`, `u32`, `usize`) are modelled as `Nat`; the indices and
counters involved only ever grow by one per operation, so wrap-around is out of
reach for every property below except the checked-arithmetic model of the free
function `proof_of_work`, where the `u64` bound is explicit.  The `f64` amount
field is modelled as `Rat` (the validity predicate only compares it with zero).
`Block::to_hash` (serde-json serialization followed by SHA-256) and the wall
clock are modelled as parameters of the Proof-of-Work environment, since both
are external to the repository.
-/

namespace ActixBlockchain

/-- Rust's `str::starts_with("0000")` on a hex digest: the four characters
`0000` are a prefix of the string's character sequence. -/
def startsWithZeros (s : String) : Bool :=
  List.isPrefixOf "0000".data s.data

/-- `Transaction` from src/src/model/blockchain.rs: sender, receiver, amount. -/
structure Transaction where
  sender : String
  receiver : String
  amount : Rat
deriving DecidableEq, Repr

/-- `Transaction::is_valid`: sender and receiver non-empty and amount not zero. -/
def Transaction.is_valid (t : Transaction) : Bool :=
  !t.sender.isEmpty && !t.receiver.isEmpty && t.amount != 0

/-- `Block` from src/src/model/blockchain.rs. -/
structure Block where
  index : Nat
  timestamp : Nat
  proof : Nat
  previous_hash : String
  transactions : List Transaction
deriving DecidableEq, Repr

/-- `Blockchain` from src/src/model/blockchain.rs. -/
structure Blockchain where
  chain : List Block
  transactions : Option (List Transaction)
  nodes : List String
deriving DecidableEq, Repr

/-- `Blockchain::new`: empty chain, no pending transactions, no nodes. -/
def Blockchain.new : Blockchain :=
  { chain := [], transactions := none, nodes := [] }

/-- `Blockchain::get_last_block`: the tip of the chain, if any. -/
def Blockchain.get_last_block (bc : Blockchain) : Option Block :=
  bc.chain.getLast?

/-- `Blockchain::get_last_block_index`: the tip's index, or 0 for an empty chain. -/
def Blockchain.get_last_block_index (bc : Blockchain) : Nat :=
  match bc.chain.getLast? with
  | some b => b.index
  | none => 0

/-- `Blockchain::add_transaction`: push onto the pending list (creating it when
it is `None`), returning the last block index plus one.  No validation. -/
def Blockchain.add_transaction (bc : Blockchain) (t : Transaction) :
    Blockchain × Nat :=
  let transactions :=
    match bc.transactions with
    | some tx => some (tx ++ [t])
    | none => some [t]
  ({ bc with transactions := transactions }, bc.get_last_block_index + 1)

/-- `Blockchain::add_transaction_from_data`: build the transaction, then
`add_transaction`. -/
def Blockchain.add_transaction_from_data (bc : Blockchain)
    (sender receiver : String) (amount : Rat) : Blockchain × Nat :=
  bc.add_transaction { sender := sender, receiver := receiver, amount := amount }

/-- Environment of a Proof-of-Work run: the block hash function
(`Block::to_hash`, i.e. serde-json plus SHA-256, external to the repository),
the wall clock read at each loop iteration (`SystemTime::now`, seconds), and
the transactions pushed into `Blockchain.transactions` by other program steps
just before each loop iteration (empty at every iteration in a faithful
single-call execution, since `proof_of_work` takes `&mut self`). -/
structure PowEnv where
  hash : Block → String
  clock : Nat → Nat
  arrivals : Nat → List Transaction

/-- One `Blockchain::add_transaction`-style push into the pending field. -/
def pushPending : Option (List Transaction) → Transaction → Option (List Transaction)
  | some tx, t => some (tx ++ [t])
  | none, t => some [t]

/-- Pushing a list of externally arriving transactions into the pending field. -/
def pushArrivals (o : Option (List Transaction)) (ts : List Transaction) :
    Option (List Transaction) :=
  ts.foldl pushPending o

/-- The `if let Some(tx) = &mut self.transactions { tx.drain(..) ... }` step of
the search loop: when the pending field is `Some`, move its content out and
leave `Some` of the empty list behind; when it is `None`, move nothing. -/
def drainStep : Option (List Transaction) → List Transaction × Option (List Transaction)
  | some tx => (tx, some [])
  | none => ([], none)

/-- The `while !proof_matches` loop of `Blockchain::proof_of_work`, with fuel.
State: the pending field of the blockchain, the candidate block, the current
nonce `p`, and the iteration counter `i`.  Each iteration sets the candidate's
proof, re-stamps its timestamp to the current clock, drains the pending field
into the candidate's transaction list, hashes, and either succeeds on a
four-zero hex digest or increments the nonce and retries. -/
def powLoop (env : PowEnv) :
    Nat → Option (List Transaction) → Block → Nat → Nat →
    Option (Block × Option (List Transaction) × Nat)
  | 0, _, _, _, _ => none
  | fuel + 1, pending, b, p, i =>
    let pending1 := pushArrivals pending (env.arrivals i)
    let moved := (drainStep pending1).1
    let pending2 := (drainStep pending1).2
    let b1 : Block :=
      { b with
        proof := p
        timestamp := env.clock i
        transactions := b.transactions ++ moved }
    if startsWithZeros (env.hash b1) then some (b1, pending2, p)
    else powLoop env fuel pending2 b1 (p + 1) (i + 1)

/-- The `last_hash` binding of `Blockchain::proof_of_work`: the tip's hash, or
the sentinel string for an empty chain. -/
def Blockchain.pow_last_hash (env : PowEnv) (bc : Blockchain) : String :=
  match bc.get_last_block with
  | some b => env.hash b
  | none => "0"

/-- The `next_index` binding of `Blockchain::proof_of_work`: the tip index plus
one, or 1 for an empty chain. -/
def Blockchain.pow_next_index (bc : Blockchain) : Nat :=
  match bc.get_last_block with
  | some b => b.index + 1
  | none => 1

/-- The candidate block built at the start of `Blockchain::proof_of_work`
(via `Block::build_block`): next index, current clock, proof 0, tip hash, and
the pending list taken out of the blockchain. -/
def Blockchain.pow_candidate (env : PowEnv) (bc : Blockchain) : Block :=
  { index := bc.pow_next_index
    timestamp := env.clock 0
    proof := 0
    previous_hash := bc.pow_last_hash env
    transactions := bc.transactions.getD [] }

/-- `Blockchain::proof_of_work`: build the candidate (the `take()` leaves the
pending field `None`), run the search loop, and push the sealed block. -/
def Blockchain.proof_of_work (env : PowEnv) (fuel : Nat) (bc : Blockchain) :
    Option (Blockchain × Nat) :=
  match powLoop env fuel none (bc.pow_candidate env) 0 0 with
  | some (b, pending, p) =>
    some ({ bc with chain := bc.chain ++ [b], transactions := pending }, p)
  | none => none

/-- `MiningWorker::mine_block` (src/src/miner/mod.rs): under the blockchain
lock, run `proof_of_work`, then add the fixed reward transaction
("blockchain" → "Miner", amount 10) to the pending list. -/
def MiningWorker.mine_block (env : PowEnv) (fuel : Nat) (bc : Blockchain) :
    Option (Blockchain × Nat) :=
  match bc.proof_of_work env fuel with
  | some (bc1, proof) =>
    some ((bc1.add_transaction_from_data "blockchain" "Miner" 10).1, proof)
  | none => none

/-- `MutexTransactionList::add_transaction`: push onto the tail of the list. -/
def MutexTransactionList.add_transaction (pool : List Transaction)
    (t : Transaction) : List Transaction :=
  pool ++ [t]

/-- `MutexTransactionList::into_vec`: drain everything, in order, leaving the
list empty; the drained sequence and the residual pool. -/
def MutexTransactionList.into_vec (pool : List Transaction) :
    List Transaction × List Transaction :=
  (pool, [])

/-- `MutexTransactionList::get_count`: the current number of pending entries. -/
def MutexTransactionList.get_count (pool : List Transaction) : Nat :=
  pool.length

/-- Outcome of the `add_transaction` HTTP handler (src/src/lib.rs) on an
already-parsed transaction: 201 Created, or the ErrorBadRequest raised on a
transaction failing `is_valid`. -/
inductive SubmitResult where
  | created
  | validationError
deriving DecidableEq, Repr

/-- The validated submit path of the `add_transaction` handler in src/src/lib.rs:
reject an invalid transaction before touching the pool, otherwise append via
`MutexTransactionList::add_transaction`. -/
def add_transaction_handler (pool : List Transaction) (t : Transaction) :
    List Transaction × SubmitResult :=
  if t.is_valid then (MutexTransactionList.add_transaction pool t, .created)
  else (pool, .validationError)

/-- Largest `u64` value. -/
def u64Max : Nat := 2 ^ 64 - 1

/-- Checked `u64` exponentiation (`u64::pow` under overflow checks). -/
def u64CheckedPow (b e : Nat) : Option Nat :=
  if b ^ e ≤ u64Max then some (b ^ e) else none

/-- Checked `u64` subtraction (`-` under overflow checks). -/
def u64CheckedSub (a b : Nat) : Option Nat :=
  if b ≤ a then some (a - b) else none

/-- The value hashed by one iteration of the free function `proof_of_work`
(src/src/model/blockchain.rs, bottom): `new_proof.pow(2) - previous_proof.pow(2)`
under checked `u64` arithmetic; `none` when the arithmetic is undefined. -/
def proof_of_work_hash_input (new_proof previous_proof : Nat) : Option Nat :=
  (u64CheckedPow new_proof 2).bind fun a =>
    (u64CheckedPow previous_proof 2).bind fun b =>
      u64CheckedSub a b

/-- Outcome of the free `proof_of_work` search. -/
inductive PowOutcome where
  | found (n : Nat)
  | panicked
  | fuelOut
deriving DecidableEq, Repr

/-- The free function `proof_of_work(previous_proof)` with fuel, parameterized
by the string digest function: starting from `new_proof = 1`, hash
`new_proof.pow(2) - previous_proof.pow(2)` until the digest has four leading
hex zeros; `panicked` when the checked arithmetic is undefined. -/
def proof_of_work_free (digestFn : String → String) :
    Nat → Nat → Nat → PowOutcome
  | 0, _, _ => .fuelOut
  | fuel + 1, new_proof, previous_proof =>
    match proof_of_work_hash_input new_proof previous_proof with
    | none => .panicked
    | some v =>
      if startsWithZeros (digestFn (toString v)) then .found new_proof
      else proof_of_work_free digestFn fuel (new_proof + 1) previous_proof

/-- Modelled from the spec claim wording, for comparison with `powLoop`: the
variant of the search loop that re-stamps the timestamp and drains newly
arrived transactions only on iterations where the wall-clock second has
changed since the last stamp, and on no other iterations. -/
def claimPowLoop (env : PowEnv) :
    Nat → Option (List Transaction) → Block → Nat → Nat →
    Option (Block × Option (List Transaction) × Nat)
  | 0, _, _, _, _ => none
  | fuel + 1, pending, b, p, i =>
    let pending1 := pushArrivals pending (env.arrivals i)
    if env.clock i == b.timestamp then
      let b1 : Block := { b with proof := p }
      if startsWithZeros (env.hash b1) then some (b1, pending1, p)
      else claimPowLoop env fuel pending1 b1 (p + 1) (i + 1)
    else
      let moved := (drainStep pending1).1
      let pending2 := (drainStep pending1).2
      let b1 : Block :=
        { b with
          proof := p
          timestamp := env.clock i
          transactions := b.transactions ++ moved }
      if startsWithZeros (env.hash b1) then some (b1, pending2, p)
      else claimPowLoop env fuel pending2 b1 (p + 1) (i + 1)

/-- Modelled from the spec claim wording: `Blockchain::proof_of_work` with the
re-stamp-and-drain-only-on-second-change loop. -/
def claim_proof_of_work (env : PowEnv) (fuel : Nat) (bc : Blockchain) :
    Option (Blockchain × Nat) :=
  match claimPowLoop env fuel none (bc.pow_candidate env) 0 0 with
  | some (b, pending, p) =>
    some ({ bc with chain := bc.chain ++ [b], transactions := pending }, p)
  | none => none

/-- The transactions arriving at loop iterations `i` through `i + n`. -/
def arrivalsSeg (env : PowEnv) (i : Nat) : Nat → List Transaction
  | 0 => env.arrivals i
  | n + 1 => env.arrivals i ++ arrivalsSeg env (i + 1) n

/-- The pending field carries no transaction: it is `None`, or the `Some` of
the empty list that a drain leaves behind. -/
def PendingEmpty (o : Option (List Transaction)) : Prop :=
  o = none ∨ o = some []

/-- Hash linkage between two adjacent blocks: the later block records the hash
of the earlier one and the next index. -/
def linkRel (hash : Block → String) (a b : Block) : Prop :=
  b.previous_hash = hash a ∧ b.index = a.index + 1

/-- Blockchain states reachable by the operations the program performs on the
shared `Blockchain` value: the initial `Blockchain::new`, pending-transaction
pushes via `Blockchain::add_transaction` (the miner's reward injection), and
successful `Blockchain::proof_of_work` runs (each call with its own clock,
arrival schedule and fuel, but all sharing the one block hash function). -/
inductive Reachable (hash : Block → String) : Blockchain → Prop where
  | init : Reachable hash Blockchain.new
  | add (bc : Blockchain) (t : Transaction) (h : Reachable hash bc) :
      Reachable hash (bc.add_transaction t).1
  | mine (bc bc' : Blockchain) (clock : Nat → Nat)
      (arrivals : Nat → List Transaction) (fuel p : Nat)
      (h : Reachable hash bc)
      (hm : bc.proof_of_work
        { hash := hash, clock := clock, arrivals := arrivals } fuel =
        some (bc', p)) :
      Reachable hash bc'

/-- A degenerate hash oracle for concrete runs: every block hashes to a digest
with four leading zeros, so the search succeeds on its first iteration. -/
def hashAlways : Block → String := fun _ => "0000"

/-- Concrete environment: constant hash oracle, clock stuck at 0, no arrivals. -/
def envA : PowEnv :=
  { hash := hashAlways, clock := fun _ => 0, arrivals := fun _ => [] }

/-- A sample pending transaction used in concrete runs. -/
def ttx : Transaction := { sender := "s", receiver := "r", amount := 1 }

/-- Concrete environment distinguishing the code's drain schedule from the
claimed one: the wall-clock second never changes, one transaction arrives at
loop iteration 1, and the hash oracle first succeeds at proof 2. -/
def envB : PowEnv :=
  { hash := fun b => if 2 ≤ b.proof then "0000" else "1111"
    clock := fun _ => 100
    arrivals := fun i => if i = 1 then [ttx] else [] }

/-- The blockchain after one successful `proof_of_work` run under `envA`. -/
def bcOne : Blockchain :=
  { chain :=
      [{ index := 1, timestamp := 0, proof := 0, previous_hash := "0",
         transactions := [] }]
    transactions := none
    nodes := [] }

/-- The blockchain after two successful `proof_of_work` runs under `envA`. -/
def bcTwo : Blockchain :=
  { chain :=
      [{ index := 1, timestamp := 0, proof := 0, previous_hash := "0",
         transactions := [] },
       { index := 2, timestamp := 0, proof := 0, previous_hash := "0000",
         transactions := [] }]
    transactions := none
    nodes := [] }

/-- The fixed mining reward transaction added by `MiningWorker::mine_block`. -/
def rewardTx : Transaction :=
  { sender := "blockchain", receiver := "Miner", amount := 10 }

/-- An invalid sample transaction (empty sender), as in spec Scenario B. -/
def invalidTx : Transaction := { sender := "", receiver := "x", amount := 1 }

/-- A valid sample transaction (Scenario A's sender and receiver; an integral
amount, since the validity predicate only compares the amount with zero). -/
def validTx : Transaction :=
  { sender := "sender1", receiver := "receiver1", amount := 5 }

/-- The blockchain produced by `Blockchain::proof_of_work` under `envB`: the
transaction that arrived at iteration 1 sits inside the sealed block even
though the wall-clock second never changed during the search. -/
def bcB : Blockchain :=
  { chain :=
      [{ index := 1, timestamp := 100, proof := 2, previous_hash := "0",
         transactions := [ttx] }]
    transactions := some []
    nodes := [] }

/-- The blockchain produced by the bootstrap `MiningWorker::mine_block` under
`envA`: block 1 is sealed empty and the reward is left pending. -/
def bcOneReward : Blockchain :=
  { chain :=
      [{ index := 1, timestamp := 0, proof := 0, previous_hash := "0",
         transactions := [] }]
    transactions := some [rewardTx]
    nodes := [] }

theorem pushArrivals_some (xs ts : List Transaction) :
    pushArrivals (some xs) ts = some (xs ++ ts) := by
  induction ts generalizing xs with
  | nil => simp [pushArrivals]
  | cons t ts ih =>
    show List.foldl pushPending (pushPending (some xs) t) ts = _
    rw [show pushPending (some xs) t = some (xs ++ [t]) from rfl]
    rw [show List.foldl pushPending (some (xs ++ [t])) ts =
      pushArrivals (some (xs ++ [t])) ts from rfl, ih]
    simp

theorem drain_push (o : Option (List Transaction)) (ts : List Transaction)
    (h : PendingEmpty o) :
    (drainStep (pushArrivals o ts)).1 = ts ∧
      PendingEmpty (drainStep (pushArrivals o ts)).2 := by
  rcases h with h | h <;> subst h
  · cases ts with
    | nil => exact ⟨rfl, Or.inl rfl⟩
    | cons t ts =>
      rw [show pushArrivals none (t :: ts) =
        pushArrivals (some [t]) ts from rfl, pushArrivals_some]
      exact ⟨rfl, Or.inr rfl⟩
  · rw [pushArrivals_some]
    exact ⟨by simp [drainStep], Or.inr rfl⟩

theorem powLoop_sound (env : PowEnv) :
    ∀ (fuel : Nat) (pending : Option (List Transaction)) (b : Block)
      (p i : Nat) (b' : Block) (pending' : Option (List Transaction))
      (p' : Nat),
      powLoop env fuel pending b p i = some (b', pending', p') →
      b'.index = b.index ∧ b'.previous_hash = b.previous_hash ∧
        startsWithZeros (env.hash b') = true ∧ b'.proof = p' := by
  intro fuel
  induction fuel with
  | zero => intro pending b p i b' pending' p' h; simp [powLoop] at h
  | succ fuel ih =>
    intro pending b p i b' pending' p' h
    simp only [powLoop] at h
    split at h
    · rename_i hs
      injection h with h1
      injection h1 with hb h2
      injection h2 with hp hpr
      subst hb; subst hpr
      exact ⟨rfl, rfl, hs, rfl⟩
    · have h2 := ih _ _ _ _ _ _ _ h
      exact ⟨h2.1, h2.2.1, h2.2.2.1, h2.2.2.2⟩

theorem powLoop_txs (env : PowEnv) :
    ∀ (fuel : Nat) (pending : Option (List Transaction)) (b : Block)
      (p i : Nat) (b' : Block) (pending' : Option (List Transaction))
      (p' : Nat),
      PendingEmpty pending →
      powLoop env fuel pending b p i = some (b', pending', p') →
      ∃ n, p' = p + n ∧
        b'.transactions = b.transactions ++ arrivalsSeg env i n ∧
        b'.timestamp = env.clock (i + n) ∧ PendingEmpty pending' := by
  intro fuel
  induction fuel with
  | zero => intro pending b p i b' pending' p' _ h; simp [powLoop] at h
  | succ fuel ih =>
    intro pending b p i b' pending' p' hpe h
    obtain ⟨hmoved, hpe2⟩ := drain_push pending (env.arrivals i) hpe
    simp only [powLoop] at h
    split at h
    · injection h with h1
      injection h1 with hb h2
      injection h2 with hp hpr
      subst hb; subst hpr; subst hp
      refine ⟨0, rfl, ?_, rfl, hpe2⟩
      simp only [arrivalsSeg, hmoved]
    · obtain ⟨n, hn, htx, hts, hpe3⟩ := ih _ _ _ _ _ _ _ hpe2 h
      refine ⟨n + 1, by omega, ?_, ?_, hpe3⟩
      · rw [htx]
        simp only [arrivalsSeg, hmoved, List.append_assoc]
      · rw [hts]
        congr 1
        omega

theorem powLoop_no_arrivals (env : PowEnv) (hnoarr : ∀ j, env.arrivals j = []) :
    ∀ (fuel : Nat) (b : Block) (p i : Nat) (b' : Block)
      (pending' : Option (List Transaction)) (p' : Nat),
      powLoop env fuel none b p i = some (b', pending', p') →
      pending' = none ∧ b'.transactions = b.transactions := by
  intro fuel
  induction fuel with
  | zero => intro b p i b' pending' p' h; simp [powLoop] at h
  | succ fuel ih =>
    intro b p i b' pending' p' h
    simp only [powLoop, hnoarr i] at h
    rw [show pushArrivals none [] = none from rfl] at h
    simp only [drainStep, List.append_nil] at h
    split at h
    · injection h with h1
      injection h1 with hb h2
      injection h2 with hp hpr
      subst hb; subst hp
      exact ⟨rfl, rfl⟩
    · have h2 := ih _ _ _ _ _ _ h
      exact ⟨h2.1, h2.2⟩

theorem proof_of_work_spec (env : PowEnv) (fuel : Nat) (bc bc' : Blockchain)
    (p : Nat) (h : bc.proof_of_work env fuel = some (bc', p)) :
    ∃ b, bc'.chain = bc.chain ++ [b] ∧ bc'.nodes = bc.nodes ∧
      PendingEmpty bc'.transactions ∧
      b.previous_hash = bc.pow_last_hash env ∧
      b.index = bc.pow_next_index ∧
      startsWithZeros (env.hash b) = true ∧
      b.proof = p ∧
      b.transactions = bc.transactions.getD [] ++ arrivalsSeg env 0 p ∧
      b.timestamp = env.clock p := by
  unfold Blockchain.proof_of_work at h
  cases hpl : powLoop env fuel none (bc.pow_candidate env) 0 0 with
  | none => rw [hpl] at h; exact absurd h (by simp)
  | some r =>
    obtain ⟨b1, pending1, p1⟩ := r
    rw [hpl] at h
    injection h with h1
    injection h1 with hbc hp
    subst hbc; subst hp
    obtain ⟨hidx, hprev, hzeros, hproof⟩ :=
      powLoop_sound env fuel none (bc.pow_candidate env) 0 0 b1 pending1 p1 hpl
    obtain ⟨n, hn, htx, hts, hpe⟩ :=
      powLoop_txs env fuel none (bc.pow_candidate env) 0 0 b1 pending1 p1
        (Or.inl rfl) hpl
    refine ⟨b1, rfl, rfl, hpe, ?_, ?_, hzeros, hproof, ?_, ?_⟩
    · exact hprev
    · exact hidx
    · rw [htx, hn, Nat.zero_add]; rfl
    · rw [hts, hn, Nat.zero_add]

theorem proof_of_work_no_arrivals (env : PowEnv)
    (hnoarr : ∀ j, env.arrivals j = []) (fuel : Nat) (bc bc' : Blockchain)
    (p : Nat) (h : bc.proof_of_work env fuel = some (bc', p)) :
    bc'.transactions = none := by
  unfold Blockchain.proof_of_work at h
  cases hpl : powLoop env fuel none (bc.pow_candidate env) 0 0 with
  | none => rw [hpl] at h; exact absurd h (by simp)
  | some r =>
    obtain ⟨b1, pending1, p1⟩ := r
    rw [hpl] at h
    injection h with h1
    injection h1 with hbc hp
    subst hbc
    exact (powLoop_no_arrivals env hnoarr fuel (bc.pow_candidate env)
      0 0 b1 pending1 p1 hpl).1

theorem arrivalsSeg_nil (env : PowEnv) (hnoarr : ∀ j, env.arrivals j = []) :
    ∀ (n i : Nat), arrivalsSeg env i n = [] := by
  intro n
  induction n with
  | zero => intro i; exact hnoarr i
  | succ n ih => intro i; simp [arrivalsSeg, hnoarr i, ih]

theorem reachable_chain (hash : Block → String) (bc : Blockchain)
    (h : Reachable hash bc) : List.Chain' (linkRel hash) bc.chain := by
  induction h with
  | init => exact List.chain'_nil
  | add bc0 t h ih => exact ih
  | mine bc0 bc1 clock arrivals fuel p h hm ih =>
    obtain ⟨b, hchain, _, _, hprev, hidx, _, _, _, _⟩ :=
      proof_of_work_spec _ fuel bc0 bc1 p hm
    rw [hchain]
    refine List.Chain'.append ih (List.chain'_singleton b) ?_
    intro x hx y hy
    simp only [List.head?_cons, Option.mem_def, Option.some.injEq] at hy
    subst hy
    rw [Option.mem_def] at hx
    constructor
    · rw [hprev]
      unfold Blockchain.pow_last_hash Blockchain.get_last_block
      rw [hx]
    · rw [hidx]
      unfold Blockchain.pow_next_index Blockchain.get_last_block
      rw [hx]

theorem is_valid_iff (t : Transaction) :
    t.is_valid = true ↔ t.sender ≠ "" ∧ t.receiver ≠ "" ∧ t.amount ≠ 0 := by
  simp [Transaction.is_valid, Bool.eq_false_iff, String.isEmpty_iff,
    bne_iff_ne, and_assoc]

theorem foldl_add_transaction (pool : List Transaction)
    (ts : List Transaction) :
    ts.foldl MutexTransactionList.add_transaction pool = pool ++ ts := by
  induction ts generalizing pool with
  | nil => simp
  | cons t ts ih =>
    show ts.foldl MutexTransactionList.add_transaction (pool ++ [t]) = _
    rw [ih]
    simp

/-- C1 (counterexample): on an empty ledger with an immediately-succeeding hash
oracle, the bootstrap `MiningWorker::mine_block` seals block 1 with an EMPTY
transaction list and only afterwards queues the reward transaction as pending,
so the block of index 1 does not contain the reward transaction. -/
theorem c1_genesis_reward_counterexample :
    MiningWorker.mine_block envA 1 Blockchain.new = some (bcOneReward, 0) ∧
    bcOneReward.chain =
      [{ index := 1, timestamp := 0, proof := 0, previous_hash := "0",
         transactions := [] }] ∧
    bcOneReward.transactions = some [rewardTx] := by
  refine ⟨by decide, rfl, rfl⟩

/-- C1 (amended): in the genesis/bootstrap mining pass on an empty ledger with
an empty pending list, `MiningWorker::mine_block` runs the Proof-of-Work
search FIRST and injects the fixed reward transaction ("blockchain" → "Miner",
amount 10) AFTERWARDS, so the sealed block of index 1 contains no transactions
and the reward is left pending for the next mined block. -/
theorem c1_genesis_reward_after_pow (env : PowEnv) (fuel : Nat)
    (hnoarr : ∀ j, env.arrivals j = []) (bc bc' : Blockchain) (p : Nat)
    (hchain : bc.chain = []) (htx : bc.transactions = none)
    (h : MiningWorker.mine_block env fuel bc = some (bc', p)) :
    ∃ b, bc'.chain = [b] ∧ b.index = 1 ∧ b.transactions = [] ∧
      bc'.transactions = some [rewardTx] := by
  unfold MiningWorker.mine_block at h
  cases hpw : bc.proof_of_work env fuel with
  | none => rw [hpw] at h; exact absurd h (by simp)
  | some r =>
    obtain ⟨bc1, p1⟩ := r
    rw [hpw] at h
    injection h with h1
    injection h1 with hbc hp
    subst hbc
    obtain ⟨b, hchain1, _, _, _, hidx, _, _, htx1, _⟩ :=
      proof_of_work_spec env fuel bc bc1 p1 hpw
    have hnone : bc1.transactions = none :=
      proof_of_work_no_arrivals env hnoarr fuel bc bc1 p1 hpw
    refine ⟨b, ?_, ?_, ?_, ?_⟩
    · show bc1.chain = [b]
      rw [hchain1, hchain]
      simp
    · rw [hidx]
      unfold Blockchain.pow_next_index Blockchain.get_last_block
      rw [hchain]
      rfl
    · rw [htx1, htx, arrivalsSeg_nil env hnoarr]
      rfl
    · show ({ bc1 with transactions := _ } : Blockchain).transactions =
        some [rewardTx]
      rw [hnone]
      rfl

/-- C1 (witness): the amended statement evaluated on the concrete bootstrap
run under `envA`. -/
theorem c1_genesis_reward_after_pow_witness :
    ∃ b, bcOneReward.chain = [b] ∧ b.index = 1 ∧ b.transactions = [] ∧
      bcOneReward.transactions = some [rewardTx] :=
  c1_genesis_reward_after_pow envA 1 (fun _ => rfl) Blockchain.new
    bcOneReward 0 rfl rfl (by decide)

/-- C2: the submit path of the `add_transaction` handler (src/src/lib.rs)
rejects every invalid transaction (empty sender, empty receiver, or zero
amount) with a validation error and leaves the pool unchanged (same contents,
same count), and appends every valid transaction to the tail of the pool. -/
theorem c2_submit_validation (pool : List Transaction) (t : Transaction) :
    ((t.sender = "" ∨ t.receiver = "" ∨ t.amount = 0) →
      (add_transaction_handler pool t).2 = SubmitResult.validationError ∧
      (add_transaction_handler pool t).1 = pool ∧
      MutexTransactionList.get_count (add_transaction_handler pool t).1 =
        MutexTransactionList.get_count pool) ∧
    (t.sender ≠ "" → t.receiver ≠ "" → t.amount ≠ 0 →
      (add_transaction_handler pool t).1 = pool ++ [t] ∧
      (add_transaction_handler pool t).2 = SubmitResult.created) := by
  constructor
  · intro hbad
    have hv : t.is_valid = false := by
      rw [Bool.eq_false_iff]
      intro hvalid
      rw [is_valid_iff] at hvalid
      rcases hbad with hb | hb | hb
      · exact hvalid.1 hb
      · exact hvalid.2.1 hb
      · exact hvalid.2.2 hb
    simp [add_transaction_handler, hv]
  · intro h1 h2 h3
    have hv : t.is_valid = true := (is_valid_iff t).2 ⟨h1, h2, h3⟩
    simp [add_transaction_handler, hv, MutexTransactionList.add_transaction]

/-- C2 (witness): Scenario B's invalid transaction (empty sender) is rejected
leaving the empty pool empty, and Scenario A's valid transaction is appended. -/
theorem c2_submit_validation_witness :
    ((add_transaction_handler [] invalidTx).2 = SubmitResult.validationError ∧
     (add_transaction_handler [] invalidTx).1 = [] ∧
     MutexTransactionList.get_count (add_transaction_handler [] invalidTx).1 =
       MutexTransactionList.get_count [] ∧
     (add_transaction_handler [] validTx).1 = [] ++ [validTx] ∧
     (add_transaction_handler [] validTx).2 = SubmitResult.created) := by
  obtain ⟨ha, hb, hc⟩ := (c2_submit_validation [] invalidTx).1 (Or.inl rfl)
  obtain ⟨hd, he⟩ :=
    (c2_submit_validation [] validTx).2 (by decide) (by decide) (by decide)
  exact ⟨ha, hb, hc, hd, he⟩

/-- C3 (counterexample): under `envB` the wall-clock second never changes
during the search, yet the code drains the transaction that arrives at
iteration 1 into the candidate block; the loop following the claim's schedule
(drain only on a second change) seals block 1 without it, so the two disagree
on a concrete run. -/
theorem c3_drain_schedule_counterexample :
    Blockchain.proof_of_work envB 3 Blockchain.new = some (bcB, 2) ∧
    claim_proof_of_work envB 3 Blockchain.new =
      some ({ chain :=
                [{ index := 1, timestamp := 100, proof := 2,
                   previous_hash := "0", transactions := [] }],
              transactions := some [ttx], nodes := [] }, 2) ∧
    Blockchain.proof_of_work envB 3 Blockchain.new ≠
      claim_proof_of_work envB 3 Blockchain.new := by
  refine ⟨by decide, by decide, by decide⟩

/-- C3 (amended): the search loop re-stamps the candidate's timestamp and
drains newly arrived pending transactions on EVERY iteration, unconditionally:
the sealed block contains every transaction that arrived at any iteration up
to the successful one (`p` failed increments means iterations 0..p ran), and
its timestamp is the clock reading of the successful iteration. -/
theorem c3_drain_every_iteration (env : PowEnv) (fuel : Nat)
    (bc bc' : Blockchain) (p : Nat)
    (h : bc.proof_of_work env fuel = some (bc', p)) :
    ∃ b, bc'.chain = bc.chain ++ [b] ∧
      b.transactions = bc.transactions.getD [] ++ arrivalsSeg env 0 p ∧
      b.timestamp = env.clock p := by
  obtain ⟨b, hchain, _, _, _, _, _, _, htx, hts⟩ :=
    proof_of_work_spec env fuel bc bc' p h
  exact ⟨b, hchain, htx, hts⟩

/-- C3 (witness): the amended statement evaluated on `envB`. -/
theorem c3_drain_every_iteration_witness :
    ∃ b, bcB.chain = Blockchain.new.chain ++ [b] ∧
      b.transactions =
        Blockchain.new.transactions.getD [] ++ arrivalsSeg envB 0 2 ∧
      b.timestamp = envB.clock 2 :=
  c3_drain_every_iteration envB 3 Blockchain.new bcB 2 (by decide)

/-- C4: on any initial state with an empty chain, a returning Proof-of-Work
search seals a first block with index 1 and the sentinel previous hash "0". -/
theorem c4_first_sealed_block (env : PowEnv) (fuel : Nat)
    (bc bc' : Blockchain) (p : Nat) (hempty : bc.chain = [])
    (h : bc.proof_of_work env fuel = some (bc', p)) :
    ∃ b, bc'.chain = [b] ∧ b.index = 1 ∧ b.previous_hash = "0" := by
  obtain ⟨b, hchain, _, _, hprev, hidx, _, _, _, _⟩ :=
    proof_of_work_spec env fuel bc bc' p h
  refine ⟨b, ?_, ?_, ?_⟩
  · rw [hchain, hempty]
    simp
  · rw [hidx]
    unfold Blockchain.pow_next_index Blockchain.get_last_block
    rw [hempty]
    rfl
  · rw [hprev]
    unfold Blockchain.pow_last_hash Blockchain.get_last_block
    rw [hempty]
    rfl

/-- C4 (witness): a concrete run on the empty blockchain under `envA`. -/
theorem c4_first_sealed_block_witness :
    ∃ b, bcOne.chain = [b] ∧ b.index = 1 ∧ b.previous_hash = "0" :=
  c4_first_sealed_block envA 1 Blockchain.new bcOne 0 rfl (by decide)

/-- C5: in every blockchain state reachable by the program's operations, every
block after the first records the hash of its predecessor as `previous_hash`
and an index exactly one greater than its predecessor's. -/
theorem c5_hash_linkage (hash : Block → String) (bc : Blockchain)
    (hr : Reachable hash bc) (i : Nat) (hi : i + 1 < bc.chain.length) :
    (bc.chain.get ⟨i + 1, hi⟩).previous_hash =
        hash (bc.chain.get ⟨i, Nat.lt_of_succ_lt hi⟩) ∧
    (bc.chain.get ⟨i + 1, hi⟩).index =
        (bc.chain.get ⟨i, Nat.lt_of_succ_lt hi⟩).index + 1 := by
  have hc := reachable_chain hash bc hr
  rw [List.chain'_iff_get] at hc
  exact hc i (by omega)

/-- C5 (witness): the two-block state reached by two mining passes under the
constant hash oracle, checked at the only adjacent pair. -/
theorem c5_hash_linkage_witness :
    (bcTwo.chain.get ⟨1, by decide⟩).previous_hash =
        hashAlways (bcTwo.chain.get ⟨0, by decide⟩) ∧
    (bcTwo.chain.get ⟨1, by decide⟩).index =
        (bcTwo.chain.get ⟨0, by decide⟩).index + 1 :=
  c5_hash_linkage hashAlways bcTwo
    (Reachable.mine bcOne bcTwo (fun _ => 0) (fun _ => []) 1 0
      (Reachable.mine Blockchain.new bcOne (fun _ => 0) (fun _ => []) 1 0
        Reachable.init (by decide))
      (by decide))
    0 (by decide)

/-- C6: every block appended by a returning Proof-of-Work search hashes, as
appended, to a digest beginning with the four-hex-zero difficulty pattern. -/
theorem c6_sealed_difficulty (env : PowEnv) (fuel : Nat)
    (bc bc' : Blockchain) (p : Nat)
    (h : bc.proof_of_work env fuel = some (bc', p)) :
    ∃ b, bc'.chain.getLast? = some b ∧
      startsWithZeros (env.hash b) = true := by
  obtain ⟨b, hchain, _, _, _, _, hzeros, _, _, _⟩ :=
    proof_of_work_spec env fuel bc bc' p h
  refine ⟨b, ?_, hzeros⟩
  rw [hchain]
  exact List.getLast?_concat _

/-- C6 (witness): the concrete run under `envA`. -/
theorem c6_sealed_difficulty_witness :
    ∃ b, bcOne.chain.getLast? = some b ∧
      startsWithZeros (envA.hash b) = true :=
  c6_sealed_difficulty envA 1 Blockchain.new bcOne 0 (by decide)

/-- C7: submitting any sequence of valid transactions and then draining
returns exactly the submitted sequence appended to the prior pool contents, in
submission order, and leaves the pool empty with count 0. -/
theorem c7_submit_then_drain (pool ts : List Transaction)
    (_hvalid : ∀ t ∈ ts, t.is_valid = true) :
    (MutexTransactionList.into_vec
        (ts.foldl MutexTransactionList.add_transaction pool)).1 =
      pool ++ ts ∧
    (MutexTransactionList.into_vec
        (ts.foldl MutexTransactionList.add_transaction pool)).2 = [] ∧
    MutexTransactionList.get_count
        (MutexTransactionList.into_vec
          (ts.foldl MutexTransactionList.add_transaction pool)).2 = 0 := by
  refine ⟨?_, rfl, rfl⟩
  rw [show (MutexTransactionList.into_vec
    (ts.foldl MutexTransactionList.add_transaction pool)).1 =
    ts.foldl MutexTransactionList.add_transaction pool from rfl]
  exact foldl_add_transaction pool ts

/-- C7 (witness): two valid transactions submitted into the empty pool. -/
theorem c7_submit_then_drain_witness :
    (MutexTransactionList.into_vec
        ([validTx, ttx].foldl MutexTransactionList.add_transaction [])).1 =
      [] ++ [validTx, ttx] ∧
    (MutexTransactionList.into_vec
        ([validTx, ttx].foldl MutexTransactionList.add_transaction [])).2 =
      [] ∧
    MutexTransactionList.get_count
        (MutexTransactionList.into_vec
          ([validTx, ttx].foldl MutexTransactionList.add_transaction [])).2 =
      0 :=
  c7_submit_then_drain [] [validTx, ttx] (by decide)

/-- C8: for every `previous_proof ≥ 2` the free `proof_of_work` function's
first loop iteration (with `new_proof = 1`) computes
`1.pow(2) - previous_proof.pow(2)`, whose mathematical value `1 - p²` is
negative, so under checked `u64` arithmetic the search panics on its first
iteration for every digest function and every fuel. -/
theorem c8_first_iteration_underflow (digestFn : String → String)
    (fuel : Nat) (p : Nat) (hp : 2 ≤ p) :
    proof_of_work_free digestFn (fuel + 1) 1 p = PowOutcome.panicked ∧
    (1 : Int) - (p : Int) ^ 2 < 0 := by
  have hsq : 4 ≤ p ^ 2 := by nlinarith
  have hone : (1 : Nat) ^ 2 = 1 := by norm_num
  have hinput : proof_of_work_hash_input 1 p = none := by
    unfold proof_of_work_hash_input u64CheckedPow u64CheckedSub
    have h1 : (1 : Nat) ^ 2 ≤ u64Max := by
      rw [hone]
      norm_num [u64Max]
    by_cases hbig : p ^ 2 ≤ u64Max
    · rw [if_pos h1, if_pos hbig]
      simp only [Option.some_bind]
      rw [if_neg (by omega)]
    · rw [if_pos h1, if_neg hbig]
      rfl
  constructor
  · simp [proof_of_work_free, hinput]
  · have hp2 : (2 : Int) ≤ (p : Int) := by exact_mod_cast hp
    nlinarith

/-- C8 (witness): the concrete case `previous_proof = 2`. -/
theorem c8_first_iteration_underflow_witness :
    proof_of_work_free id 1 1 2 = PowOutcome.panicked ∧
    (1 : Int) - (2 : Int) ^ 2 < 0 :=
  c8_first_iteration_underflow id 0 2 (by decide)

/-- C9: `Blockchain::add_transaction` appends any transaction, valid or not,
to the pending list without validation, leaves the chain and nodes unchanged,
and returns the current last block index plus one. -/
theorem c9_add_transaction_unchecked (bc : Blockchain) (t : Transaction) :
    (bc.add_transaction t).1.chain = bc.chain ∧
    (bc.add_transaction t).1.nodes = bc.nodes ∧
    (bc.add_transaction t).1.transactions =
      some (bc.transactions.getD [] ++ [t]) ∧
    (bc.add_transaction t).2 = bc.get_last_block_index + 1 := by
  refine ⟨rfl, rfl, ?_, rfl⟩
  cases htx : bc.transactions <;> simp [Blockchain.add_transaction, htx]

/-- C10: whenever `Blockchain::proof_of_work` returns (in a faithful run, i.e.
with no external arrivals, since the method holds `&mut self`), the chain has
grown by exactly one block, the pending-transaction field is `None`, the nodes
field is unchanged, and the returned value is the proof field of the new tip. -/
theorem c10_proof_of_work_frame (env : PowEnv) (fuel : Nat)
    (bc bc' : Blockchain) (p : Nat) (hnoarr : ∀ j, env.arrivals j = [])
    (h : bc.proof_of_work env fuel = some (bc', p)) :
    bc'.chain.length = bc.chain.length + 1 ∧
    bc'.transactions = none ∧
    bc'.nodes = bc.nodes ∧
    ∃ b, bc'.chain.getLast? = some b ∧ b.proof = p := by
  obtain ⟨b, hchain, hnodes, _, _, _, _, hproof, _, _⟩ :=
    proof_of_work_spec env fuel bc bc' p h
  refine ⟨?_, proof_of_work_no_arrivals env hnoarr fuel bc bc' p h,
    hnodes, b, ?_, hproof⟩
  · rw [hchain]
    simp
  · rw [hchain]
    exact List.getLast?_concat _

/-- C10 (witness): the concrete run under `envA`. -/
theorem c10_proof_of_work_frame_witness :
    bcOne.chain.length = Blockchain.new.chain.length + 1 ∧
    bcOne.transactions = none ∧
    bcOne.nodes = Blockchain.new.nodes ∧
    ∃ b, bcOne.chain.getLast? = some b ∧ b.proof = 0 :=
  c10_proof_of_work_frame envA 1 Blockchain.new bcOne 0 (fun _ => rfl)
    (by decide)

end ActixBlockchain
